import Mathlib

/-!
Verification of the `tree_updater` snapshot pipeline (`tree_updater.py`).

The definitions below are a shallow embedding of the source:
filesystem trees become the inductive `FS`, the flat walker
`scandir_paths` becomes `walkAux`/`scandirPathsM`, the nested builder
`get_tree_dict`'s `build_node` becomes `buildNodeF`, backup rotation
becomes `rotateBackups` over an explicit backup-directory state, and
`compute_diff` becomes `computeDiffLines`.  External stdlib behaviour
(`fnmatch`, `pathspec`, `os.scandir` error classes, the string order
used by `sorted`) is modelled by explicit parameters or by the
documented contract of the library call.
-/

namespace TreeUpdater

/-- `DEFAULT_INCLUDE_SUFFIXES` from the source. -/
def DEFAULT_INCLUDE_SUFFIXES : List String :=
  [".py", ".pyi", ".ipynb", ".js", ".ts", ".tsx", ".jsx", ".json",
   ".toml", ".yaml", ".yml", ".txt", ".md", ".rst", ".html", ".css",
   ".scss", ".sh", ".bat", ".ps1", ".ini", ".cfg", ".gradle", ".kt",
   ".java", ".c", ".h", ".cpp", ".hpp", ".go", ".rs", ".swift"]

/-- `SPECIAL_NAMES` from the source. -/
def SPECIAL_NAMES : List String := ["Dockerfile", "Makefile", "LICENSE", "README"]

/-- `DEFAULT_EXCLUDE` from the source. -/
def DEFAULT_EXCLUDE : List String :=
  ["__pycache__", ".git", ".hg", ".svn", "venv", ".venv", "node_modules",
   "dist", "build", ".idea", ".pytest_cache", ".mypy_cache"]

/-- `BACKUP_DIRNAME` from the source. -/
def BACKUP_DIRNAME : String := "tree_backups"

/-- `DIFF_FILE` from the source. -/
def DIFF_FILE : String := "tree_diff_latest.txt"

/-- Split a character list at its last dot: `(before, after)`. -/
def afterLastDot : List Char → Option (List Char × List Char)
  | [] => none
  | c :: cs =>
    match afterLastDot cs with
    | some (b, a) => some (c :: b, a)
    | none => if c = '.' then some ([], cs) else none

/-- `pathlib.Path.suffix`: the extension from the last dot of the file
name, empty when that dot is the first or the last character. -/
def pySuffix (nm : String) : String :=
  match afterLastDot nm.data with
  | some (b, a) => if b = [] then "" else if a = [] then "" else String.mk ('.' :: a)
  | none => ""

/-- `str.lower()` restricted to ASCII, which covers the suffix sets the
program compares. -/
def strLower (s : String) : String := String.mk (s.data.map Char.toLower)

/-- `git and git.match_file(rel)`: the optional `pathspec` matcher is an
opaque predicate; `None` matches nothing. -/
def gitM (git : Option (String → Bool)) (rel : String) : Bool :=
  match git with
  | some g => g rel
  | none => false

/-- `match_exclude(rel, patterns)`: each glob pattern is modelled by the
predicate `fnmatch.fnmatch(·, pat)` computes. -/
def matchExclude (rel : String) (patterns : List (String → Bool)) : Bool :=
  patterns.any (fun pat => pat rel)

/-- A directory entry of the modelled filesystem.  `dir` carries whether
the entry is a symbolic link to a directory (`sym`) and whether listing
its children succeeds (`perm`; `false` raises `PermissionError`).
`missing` is a path that does not exist (reading it raises
`FileNotFoundError`). -/
inductive FS where
  | file (nm : String) (size mtime : Nat) : FS
  | dir (nm : String) (sym perm : Bool) (children : List FS) : FS
  | missing (nm : String) : FS

/-- The entry name (`DirEntry.name` / `Path.name`). -/
def FS.name : FS → String
  | .file nm _ _ => nm
  | .dir nm _ _ _ => nm
  | .missing nm => nm

/-- `entry.is_dir(follow_symlinks=False)`. -/
def FS.isDirNoFollow : FS → Bool
  | .dir _ sym _ _ => !sym
  | _ => false

/-- Python exception classes that can escape the modelled code. -/
inductive PyErr where
  | fileNotFound
  | notADirectory
  | valueError
deriving DecidableEq

/-- Lexicographic comparison of character lists by code point, the
order Python's `sorted` uses on strings. -/
def lexLe : List Char → List Char → Bool
  | [], _ => true
  | _ :: _, [] => false
  | a :: as, b :: bs =>
    if a.toNat < b.toNat then true
    else if a.toNat = b.toNat then lexLe as bs
    else false

/-- String comparison by code points (Python's string order). -/
def strLe (a b : String) : Bool := lexLe a.data b.data

/-- Stable insertion of one entry into a name-sorted list. -/
def insertByName (x : FS) : List FS → List FS
  | [] => [x]
  | y :: ys => if strLe x.name y.name then x :: y :: ys else y :: insertByName x ys

/-- `sorted(entries, key=lambda e: e.name)` as a stable insertion sort. -/
def sortByName (l : List FS) : List FS := l.foldr insertByName []

/-- Stable insertion of a string into a sorted list. -/
def insertStr (x : String) : List String → List String
  | [] => [x]
  | y :: ys => if strLe x y then x :: y :: ys else y :: insertStr x ys

/-- `sorted` on plain strings. -/
def sortStr (l : List String) : List String := l.foldr insertStr []

/-- The per-entry body of `_walk`'s loop in `scandir_paths`: filters the
entry, yields it, and for a real (non-symlink) directory appends the
recursive walk `recur` of that child.  `pfx` is the relative path of the
current directory with a trailing separator (empty at the root). -/
def walkKids (git : Option (String → Bool)) (exc : List (String → Bool))
    (inc : List String) (recur : FS → String → Except PyErr (List String)) :
    List FS → String → Except PyErr (List String)
  | [], _ => .ok []
  | c :: cs, pfx =>
    let rel := pfx ++ c.name
    if gitM git rel then walkKids git exc inc recur cs pfx
    else if matchExclude rel exc then walkKids git exc inc recur cs pfx
    else if c.isDirNoFollow then
      if c.name ∈ DEFAULT_EXCLUDE ∧ rel ≠ "" then walkKids git exc inc recur cs pfx
      else do
        let sub ← recur c (rel ++ "/")
        let rest ← walkKids git exc inc recur cs pfx
        .ok (rel :: (sub ++ rest))
    else
      if c.name ∈ SPECIAL_NAMES ∨ strLower (pySuffix c.name) ∈ inc then do
        let rest ← walkKids git exc inc recur cs pfx
        .ok (rel :: rest)
      else walkKids git exc inc recur cs pfx

/-- `_walk(current, d)` from `scandir_paths`, with `fuel = depth + 1 - d`
so that the guard `d > depth` is `fuel = 0`.  Listing a missing path
raises `FileNotFoundError`, a file raises `NotADirectoryError`, and a
`PermissionError` (unreadable directory) is caught and logged, yielding
nothing for that directory. -/
def walkAux (git : Option (String → Bool)) (exc : List (String → Bool))
    (inc : List String) (fuel : Nat) : FS → String → Except PyErr (List String) :=
  Nat.rec (motive := fun _ => FS → String → Except PyErr (List String))
    (fun _ _ => .ok [])
    (fun _ ih fs pfx =>
      match fs with
      | .missing _ => .error .fileNotFound
      | .file _ _ _ => .error .notADirectory
      | .dir _ _ perm cs =>
        if perm then walkKids git exc inc ih (sortByName cs) pfx else .ok [])
    fuel

/-- `scandir_paths(root, depth, include, exclude, git)`: the full flat
walk of one root (the generator consumed into a list, exceptions
propagating). -/
def scandirPathsM (git : Option (String → Bool)) (exc : List (String → Bool))
    (inc : List String) (depth : Nat) (root : FS) : Except PyErr (List String) :=
  walkAux git exc inc (depth + 1) root ""

/-- A node of the nested dictionary built by `get_tree_dict`:
`{"name": .., "type": "dir", "children": [..]}` or
`{"name": .., "type": "file", "size": .., "mtime": ..}`. -/
inductive Node where
  | dirN (nm : String) (children : List Node) : Node
  | fileN (nm : String) (size mtime : Nat) : Node

/-- `child.relative_to(base).as_posix()` for a child named `nm` of the
directory whose own relative path is `parentRel` (the root itself has
relative path `"."`). -/
def childRel (parentRel nm : String) : String :=
  if parentRel = "." then nm else parentRel ++ "/" ++ nm

/-- The Python dir-node name `rel or root.as_posix()`: the absolute
posix path is used only when `rel` is the empty string. -/
def dirNodeName (rel curPath : String) : String :=
  if rel = "" then curPath else rel

/-- The `for child in sorted(root.iterdir(), ...)` loop of `build_node`:
build each child with `recur`, appending the node when it is not `None`.
`parentPath` is the absolute posix path of the parent. -/
def buildKids (recur : FS → String → String → Except PyErr (Option Node)) :
    List FS → String → String → Except PyErr (List Node)
  | [], _, _ => .ok []
  | c :: cs, parentRel, parentPath => do
    let n? ← recur c (childRel parentRel c.name) (parentPath ++ "/" ++ c.name)
    let rest ← buildKids recur cs parentRel parentPath
    match n? with
    | some n => .ok (n :: rest)
    | none => .ok rest

/-- One level of `build_node`: gitignore and exclude filters, the
built-in directory exclusion, then either a childless dir node (when the
depth budget `ih = none` is exhausted or listing raises
`PermissionError`) or recursion into the sorted children.  A file is
kept by the special-name / include-suffix rule; `stat()` on a missing
path raises `FileNotFoundError`. -/
def buildStep (git : Option (String → Bool)) (exc : List (String → Bool))
    (inc : List String)
    (ih : Option (FS → String → String → Except PyErr (Option Node)))
    (fs : FS) (rel curPath : String) : Except PyErr (Option Node) :=
  if gitM git rel then .ok none
  else if matchExclude rel exc then .ok none
  else match fs with
    | .dir nm _ perm cs =>
      if nm ∈ DEFAULT_EXCLUDE ∧ rel ≠ "" then .ok none
      else
        match ih with
        | none => .ok (some (.dirN (dirNodeName rel curPath) []))
        | some recur =>
          if perm then do
            let kids ← buildKids recur (sortByName cs) rel curPath
            .ok (some (.dirN (dirNodeName rel curPath) kids))
          else .ok (some (.dirN (dirNodeName rel curPath) []))
    | .file nm sz mt =>
      if nm ∈ SPECIAL_NAMES ∨ strLower (pySuffix nm) ∈ inc then
        .ok (some (.fileN rel sz mt))
      else .ok none
    | .missing nm =>
      if nm ∈ SPECIAL_NAMES ∨ strLower (pySuffix nm) ∈ inc then
        .error .fileNotFound
      else .ok none

/-- `build_node(root, cur_depth, git)` from `get_tree_dict`, with
`fuel = depth - cur_depth` so that the cutoff `cur_depth >= depth` is
`fuel = 0`. -/
def buildNodeF (git : Option (String → Bool)) (exc : List (String → Bool))
    (inc : List String) (fuel : Nat) :
    FS → String → String → Except PyErr (Option Node) :=
  Nat.rec (motive := fun _ => FS → String → String → Except PyErr (Option Node))
    (buildStep git exc inc none)
    (fun _ ih => buildStep git exc inc (some ih))
    fuel

/-- The per-root work of `get_tree_dict`: it substitutes
`DEFAULT_INCLUDE_SUFFIXES` for a falsy (`None` or empty) include set
(`include or DEFAULT_INCLUDE_SUFFIXES`), lower-cases the result, then
builds the root's node with `rel = "."` (the value of
`r.relative_to(r).as_posix()`). -/
def getTreeDictRoot (git : Option (String → Bool)) (exc : List (String → Bool))
    (inc : List String) (depth : Nat) (root : FS) (rootPath : String) :
    Except PyErr (Option Node) :=
  buildNodeF git exc
    ((if inc = [] then DEFAULT_INCLUDE_SUFFIXES else inc).map strLower)
    depth root "." rootPath

/-- The relative paths (node names) of a list of nodes together with
all their descendants. -/
def pathsList : List Node → List String
  | [] => []
  | .fileN nm _ _ :: rest => nm :: pathsList rest
  | .dirN nm cs :: rest => nm :: (pathsList cs ++ pathsList rest)

/-- `set(a) == set(b)` on line lists. -/
def setEqB (a b : List String) : Bool :=
  a.all (fun x => b.contains x) && b.all (fun x => a.contains x)

/-- The `--skip-unchanged` comparison in `main`: the body lines of the
existing output file (everything after the first line) compared as a
set against the freshly scanned relative paths. -/
def unchangedCheck (prevFileLines current : List String) : Bool :=
  setEqB (prevFileLines.drop 1) current

/-- `sorted(set(a) - set(b))` on line lists. -/
def sortedSetDiff (a b : List String) : List String :=
  sortStr ((a.filter (fun x => !b.contains x)).dedup)

/-- `compute_diff(prev, new, diff_path)`: `none` for a previous path
that does not exist; both files contribute their lines after the first
(header) line; the result is the `(added, removed)` counts plus the
report lines. -/
def computeDiffLines (prevLines? : Option (List String)) (newLines : List String) :
    (Nat × Nat) × List String :=
  let prevBody :=
    match prevLines? with
    | some ls => ls.drop 1
    | none => []
  let newBody := newLines.drop 1
  let added := sortedSetDiff newBody prevBody
  let removed := sortedSetDiff prevBody newBody
  ((added.length, removed.length),
    ("added: " ++ toString added.length) ::
    ("removed: " ++ toString removed.length) ::
    ((added.take 100).map (fun l => "+ " ++ l) ++
     (removed.take 100).map (fun l => "- " ++ l)))

/-- The part of the filesystem relevant to backup rotation: whether the
snapshot target exists, the uncompressed `<stem>_<ts>.txt` backups, and
the `.gz` files in the backup directory. -/
structure BState where
  targetExists : Bool
  backups : List String
  gz : List String

/-- `rotate_backups(target, keep)`: move the existing target to a
timestamped backup (`Path.replace` overwrites a same-named file), then
compress-and-unlink every backup beyond the newest `keep`, skipping a
backup whose `.gz` sibling already exists. -/
def rotateBackups (stem ts : String) (keep : Nat) (st : BState) : BState :=
  let st1 :=
    if st.targetExists then
      { targetExists := false,
        backups :=
          let nm := stem ++ "_" ++ ts ++ ".txt"
          if nm ∈ st.backups then st.backups else nm :: st.backups,
        gz := st.gz }
    else st
  let sorted := sortStr st1.backups
  if keep < sorted.length then
    (sorted.take (sorted.length - keep)).foldl
      (fun s old =>
        if (old ++ ".gz") ∈ s.gz then s
        else { s with gz := (old ++ ".gz") :: s.gz,
                      backups := s.backups.erase old })
      st1
  else st1

/-- A run of the pipeline rotates once per invocation and then writes a
new snapshot, so the target exists again before the next rotation. -/
def runRotations (stem : String) (keep : Nat) (tss : List String) (st : BState) : BState :=
  tss.foldl (fun s ts => rotateBackups stem ts keep { s with targetExists := true }) st

/-- `# project-tree snapshot · <timestamp>Z`. -/
def headerLine (ts : String) : String := "# project-tree snapshot · " ++ ts ++ "Z"

/-- The lines `main` writes for one root: the `## <root>` marker, the
root's relative-path listing, and a trailing blank line. -/
def rootBlock (root : String) (rels : List String) : List String :=
  ("## " ++ root) :: rels ++ [""]

/-- Modelled from the concurrent.futures contract the source relies on:
`ThreadPoolExecutor(max_workers=n)` raises `ValueError` when `n <= 0`
and otherwise constructs a pool. -/
def threadPoolNew (maxWorkers : Nat) : Except PyErr Unit :=
  if maxWorkers = 0 then .error .valueError else .ok ()

/-- Iterating `pool.map`'s result re-raises the first worker
exception in input order. -/
def seqExcept : List (Except PyErr (List String)) → Except PyErr (List (List String))
  | [] => .ok []
  | x :: xs => do
    let a ← x
    let rest ← seqExcept xs
    .ok (a :: rest)

/-- The scan-and-write step of `main`: write the header and blank line,
construct the pool sized to the number of roots, run one walk per root
(`pool.map` returns results in input order), then write each root's
block in configured-root order. -/
def mainWriteModel (roots : List String) (oneRoot : String → Except PyErr (List String))
    (ts : String) : Except PyErr (List String) := do
  let _ ← threadPoolNew roots.length
  let results ← seqExcept (roots.map oneRoot)
  .ok (headerLine ts :: "" :: (roots.zip results).flatMap (fun p => rootBlock p.1 p.2))

/-- `target.replace(backup)` on a path-to-lines filesystem map. -/
def moveFile (fsys : String → Option (List String)) (src dst : String) :
    String → Option (List String) :=
  match fsys src with
  | some content => fun p => if p = dst then some content else if p = src then none else fsys p
  | none => fsys

/-- The tail of `main` around the diff step: `prev_snapshot` is set to
the output path (not its contents) when that path exists, the backup
rotation then moves the file at that path away, the new snapshot is
written to it, and `compute_diff(prev_snapshot or args.out, args.out)`
reads both arguments from the resulting filesystem. -/
def mainDiffPhase (fsys : String → Option (List String)) (out backupName : String)
    (noBackup : Bool) (newFileLines : List String) : (Nat × Nat) × List String :=
  let prevSnapshot : Option String := if (fsys out).isSome then some out else none
  let fsys1 := if noBackup then fsys else moveFile fsys out backupName
  let fsys2 := fun p => if p = out then some newFileLines else fsys1 p
  computeDiffLines (fsys2 (prevSnapshot.getD out)) ((fsys2 out).getD [])

/-- Names down to `fuel` levels of the tree all satisfy `p`. -/
def allNamesP (p : String → Bool) (fuel : Nat) : FS → Bool :=
  Nat.rec (motive := fun _ => FS → Bool)
    (fun _ => true)
    (fun _ ih fs =>
      match fs with
      | .file nm _ _ => p nm
      | .missing nm => p nm
      | .dir nm _ _ cs => p nm && cs.all ih)
    fuel

/-- Down to `fuel` levels there is no missing entry and no symbolic
link to a directory. -/
def okShape (fuel : Nat) : FS → Bool :=
  Nat.rec (motive := fun _ => FS → Bool)
    (fun _ => true)
    (fun _ ih fs =>
      match fs with
      | .file _ _ _ => true
      | .missing _ => false
      | .dir _ sym _ cs => !sym && cs.all ih)
    fuel

/-- An entry name that is a plausible directory-entry name: non-empty
and not the special path `"."`. -/
def plainName (nm : String) : Bool := !(nm == "") && !(nm == ".")

/-- An entry name containing no path separator. -/
def slashFree (nm : String) : Bool := !(nm.data.contains '/')

/-- Pairwise comparison of two child lists under `eqv`. -/
def pairAll (eqv : FS → FS → Bool) : List FS → List FS → Bool
  | [], [] => true
  | a :: as, b :: bs => eqv a b && pairAll eqv as bs
  | _, _ => false

/-- Equality of two filesystem trees down to `fuel` levels, except that
the target contents of a symbolic link to a directory may differ
arbitrarily. -/
def entryEquiv (fuel : Nat) : FS → FS → Bool :=
  Nat.rec (motive := fun _ => FS → FS → Bool)
    (fun _ _ => true)
    (fun _ ih a b =>
      match a, b with
      | .file n1 s1 m1, .file n2 s2 m2 => n1 == n2 && s1 == s2 && m1 == m2
      | .missing n1, .missing n2 => n1 == n2
      | .dir n1 true p1 _, .dir n2 true p2 _ => n1 == n2 && p1 == p2
      | .dir n1 false p1 c1, .dir n2 false p2 c2 => n1 == n2 && p1 == p2 && pairAll ih c1 c2
      | _, _ => false)
    fuel

/-- `entryEquiv` lifted to sibling lists. -/
def listEquiv (fuel : Nat) (a b : List FS) : Bool := pairAll (entryEquiv fuel) a b

/-- The number of path separators in a relative path. -/
def sepCount (s : String) : Nat := s.data.count '/'

/-- The walker prefix corresponding to a directory whose relative path
is `rel`: empty at the root (`rel = "."`), otherwise `rel ++ "/"`. -/
def relPfx (rel : String) : String := if rel = "." then "" else rel ++ "/"

/-! ### Supporting lemmas -/

theorem insertStr_length (x : String) (l : List String) :
    (insertStr x l).length = l.length + 1 := by
  induction l with
  | nil => rfl
  | cons y ys ih =>
    simp only [insertStr]
    split
    · simp
    · simp [ih]

theorem sortStr_length (l : List String) : (sortStr l).length = l.length := by
  induction l with
  | nil => rfl
  | cons x xs ih => simp [sortStr, List.foldr] at ih ⊢; rw [insertStr_length, ih]

theorem filter_not_contains_self (l : List String) :
    l.filter (fun x => !l.contains x) = [] := by
  rw [List.filter_eq_nil_iff]
  intro a ha
  simp [ha]

/-- Diffing a file's lines against themselves yields zero counts. -/
theorem computeDiffLines_self (l : List String) : (computeDiffLines (some l) l).1 = (0, 0) := by
  simp only [computeDiffLines, sortedSetDiff, filter_not_contains_self]
  simp [sortStr_length]

/-- Whenever a previous snapshot file existed at the output path, the
diff phase of `main` compares the freshly written snapshot with itself,
so the reported counts are always `(0, 0)`. -/
theorem mainDiffPhase_prev_exists (fsys : String → Option (List String))
    (out bk : String) (nb : Bool) (newL : List String) (h : (fsys out).isSome) :
    (mainDiffPhase fsys out bk nb newL).1 = (0, 0) := by
  simp only [mainDiffPhase, h, if_true, Option.getD_some, if_pos rfl]
  exact computeDiffLines_self newL

/-! ### Claim theorems: C1, C2, C3, C4, C6 -/

/-- C1: the code does not satisfy the claim.  With an existing previous
snapshot whose body is the single path `x.py` and a new scan whose body
adds `y.py`, the diff step reports `(0, 0)` — `prev_snapshot` stores the
output path itself, whose content after rotation and rewriting is the
new snapshot — while the set difference of the pre-rotation body and
the new body is `(1, 0)`. -/
theorem claim_c1 :
    (mainDiffPhase
        (fun p => if p = "out" then some ["h", "", "## r", "x.py", ""] else none)
        "out" "bk" false ["h2", "", "## r", "x.py", "y.py", ""]).1 = (0, 0)
    ∧ (computeDiffLines (some ["h", "", "## r", "x.py", ""])
        ["h2", "", "## r", "x.py", "y.py", ""]).1 = (1, 0) := by
  exact ⟨rfl, rfl⟩

/-- C2: the code does not satisfy the claim.  A snapshot written by the
pipeline for a root `r` containing `a.py` has body lines
`["", "## r", "a.py", ""]`; re-scanning the unchanged filesystem yields
`["a.py"]`, and the `--skip-unchanged` set comparison is false (the
marker and blank lines are in the body set but never in the listing),
so the run never reports "unchanged". -/
theorem claim_c2 :
    scandirPathsM none [] [".py"] 1 (.dir "r" false true [.file "a.py" 1 2]) = .ok ["a.py"]
    ∧ mainWriteModel ["r"]
        (fun _ => scandirPathsM none [] [".py"] 1 (.dir "r" false true [.file "a.py" 1 2]))
        "t" = .ok ["# project-tree snapshot · tZ", "", "## r", "a.py", ""]
    ∧ unchangedCheck ["# project-tree snapshot · tZ", "", "## r", "a.py", ""] ["a.py"] = false := by
  exact ⟨rfl, rfl, rfl⟩

/-- C3: the code does not satisfy the claim.  With `keep = 1`, three
rotations whose timestamps are `t1 < t2` and then `t1` again (a clock
that repeats a second) leave two uncompressed backups: the third call
finds the re-created `tree_t1.txt` beyond the retention boundary, but
because its `.gz` sibling already exists both the compression and the
unlink are skipped, so the uncompressed file survives. -/
theorem claim_c3 :
    (runRotations "tree" 1 ["20250101_000001", "20250101_000002", "20250101_000001"]
        { targetExists := true, backups := [], gz := [] }).backups
      = ["tree_20250101_000001.txt", "tree_20250101_000002.txt"] := by
  exact rfl

/-- C4: the code does not satisfy the claim.  Scanning a root that does
not exist raises `FileNotFoundError` (only `PermissionError` is caught
in `scandir_paths`), so the walk aborts instead of contributing nothing
and continuing. -/
theorem claim_c4 (git : Option (String → Bool)) (exc : List (String → Bool))
    (inc : List String) (depth : Nat) :
    scandirPathsM git exc inc depth (.missing "gone") = .error .fileNotFound := by
  exact rfl

/-- C6 counterexample: a new snapshot whose body has duplicate lines
(every real snapshot does — the post-header blank line and each root's
trailing blank line coincide) is counted by distinct lines, not by body
lines: for body `["", ""]` the code reports 1 added, not 2. -/
theorem claim_c6_counterexample :
    (computeDiffLines none ["h", "", ""]).1 ≠ (((["h", "", ""] : List String).drop 1).length, 0) := by
  decide

/-- C6 (amended): when the previous snapshot path does not exist,
`compute_diff` reports `(d, 0)` where `d` is the number of **distinct**
body lines of the new snapshot, and nothing counts as removed. -/
theorem claim_c6 (newLines : List String) :
    (computeDiffLines none newLines).1 = ((newLines.drop 1).dedup.length, 0) := by
  simp only [computeDiffLines, sortedSetDiff]
  have h1 : (newLines.drop 1).filter (fun x => !List.contains ([] : List String) x)
      = newLines.drop 1 := by
    simp [List.filter_eq_self]
  rw [h1, sortStr_length]
  rfl

/-! ### Unfolding equations (definitional) -/

theorem walkAux_zero (git : Option (String → Bool)) (exc : List (String → Bool))
    (inc : List String) (fs : FS) (pfx : String) :
    walkAux git exc inc 0 fs pfx = .ok [] := rfl

theorem walkAux_succ_dir (git : Option (String → Bool)) (exc : List (String → Bool))
    (inc : List String) (m : Nat) (nm : String) (sy pm : Bool) (cs : List FS) (pfx : String) :
    walkAux git exc inc (m + 1) (.dir nm sy pm cs) pfx
      = if pm then walkKids git exc inc (walkAux git exc inc m) (sortByName cs) pfx
        else .ok [] := rfl

theorem buildNodeF_zero (git : Option (String → Bool)) (exc : List (String → Bool))
    (inc : List String) :
    buildNodeF git exc inc 0 = buildStep git exc inc none := rfl

theorem buildNodeF_succ (git : Option (String → Bool)) (exc : List (String → Bool))
    (inc : List String) (m : Nat) :
    buildNodeF git exc inc (m + 1) = buildStep git exc inc (some (buildNodeF git exc inc m)) := rfl

theorem okShape_succ_dir (m : Nat) (nm : String) (sy pm : Bool) (cs : List FS) :
    okShape (m + 1) (.dir nm sy pm cs) = (!sy && cs.all (okShape m)) := rfl

theorem allNamesP_succ_dir (p : String → Bool) (m : Nat) (nm : String) (sy pm : Bool)
    (cs : List FS) :
    allNamesP p (m + 1) (.dir nm sy pm cs) = (p nm && cs.all (allNamesP p m)) := rfl

theorem entryEquiv_succ (m : Nat) (a b : FS) :
    entryEquiv (m + 1) a b
      = (match a, b with
        | .file n1 s1 m1, .file n2 s2 m2 => n1 == n2 && s1 == s2 && m1 == m2
        | .missing n1, .missing n2 => n1 == n2
        | .dir n1 true p1 _, .dir n2 true p2 _ => n1 == n2 && p1 == p2
        | .dir n1 false p1 c1, .dir n2 false p2 c2 =>
            n1 == n2 && p1 == p2 && pairAll (entryEquiv m) c1 c2
        | _, _ => false) := rfl

theorem exceptBind_ok {α β : Type} (a : α) (f : α → Except PyErr β) :
    (Except.ok a >>= f) = f a := rfl

theorem exceptBind_err {α β : Type} (e : PyErr) (f : α → Except PyErr β) :
    ((Except.error e : Except PyErr α) >>= f) = Except.error e := rfl

theorem exceptBind_pure {α : Type} (e : Except PyErr α) :
    (e >>= fun a => Except.ok a) = e := by
  cases e <;> rfl

/-! ### The walker cannot fail below the root -/

theorem walkKids_ok (git : Option (String → Bool)) (exc : List (String → Bool))
    (inc : List String) (recur : FS → String → Except PyErr (List String))
    (cs : List FS) (pfx : String)
    (hr : ∀ c r, c.isDirNoFollow = true → ∃ v, recur c r = Except.ok v) :
    ∃ ls, walkKids git exc inc recur cs pfx = Except.ok ls := by
  induction cs with
  | nil => exact ⟨[], rfl⟩
  | cons c cs ih =>
    obtain ⟨rest, hrest⟩ := ih
    by_cases h1 : gitM git (pfx ++ c.name) = true
    · exact ⟨rest, by simp [walkKids, h1, hrest]⟩
    by_cases h2 : matchExclude (pfx ++ c.name) exc = true
    · exact ⟨rest, by simp [walkKids, h1, h2, hrest]⟩
    by_cases h3 : c.isDirNoFollow = true
    · by_cases h4 : c.name ∈ DEFAULT_EXCLUDE ∧ pfx ++ c.name ≠ ""
      · exact ⟨rest, by simp [walkKids, h1, h2, h3, h4, hrest]⟩
      · obtain ⟨v, hv⟩ := hr c (pfx ++ c.name ++ "/") h3
        refine ⟨(pfx ++ c.name) :: (v ++ rest), ?_⟩
        simp [walkKids, h1, h2, h3, h4, hv, hrest, exceptBind_ok]
    · by_cases h5 : c.name ∈ SPECIAL_NAMES ∨ strLower (pySuffix c.name) ∈ inc
      · exact ⟨(pfx ++ c.name) :: rest, by
          simp [walkKids, h1, h2, h3, h5, hrest, exceptBind_ok]⟩
      · exact ⟨rest, by simp [walkKids, h1, h2, h3, h5, hrest, exceptBind_ok]⟩

theorem walkAux_dir_ok (git : Option (String → Bool)) (exc : List (String → Bool))
    (inc : List String) :
    ∀ (fuel : Nat) (nm : String) (sy pm : Bool) (cs : List FS) (pfx : String),
      ∃ ls, walkAux git exc inc fuel (.dir nm sy pm cs) pfx = Except.ok ls := by
  intro fuel
  induction fuel with
  | zero => exact fun nm sy pm cs pfx => ⟨[], rfl⟩
  | succ m ih =>
    intro nm sy pm cs pfx
    rw [walkAux_succ_dir]
    cases pm with
    | false => exact ⟨[], rfl⟩
    | true =>
      simp only [if_true]
      refine walkKids_ok git exc inc _ _ _ ?_
      intro c r hdir
      cases c with
      | dir nm' sy' pm' cs' => exact ih nm' sy' pm' cs' r
      | file nm' sz mt => exact absurd hdir (by simp [FS.isDirNoFollow])
      | missing nm' => exact absurd hdir (by simp [FS.isDirNoFollow])

theorem walkAux_ne_valueError (git : Option (String → Bool)) (exc : List (String → Bool))
    (inc : List String) (fuel : Nat) (fs : FS) (pfx : String) :
    walkAux git exc inc fuel fs pfx ≠ Except.error PyErr.valueError := by
  cases fuel with
  | zero => simp [walkAux_zero]
  | succ m =>
    cases fs with
    | missing nm => intro h; exact PyErr.noConfusion (Except.error.inj h)
    | file nm sz mt => intro h; exact PyErr.noConfusion (Except.error.inj h)
    | dir nm sy pm cs =>
      obtain ⟨ls, hls⟩ := walkAux_dir_ok git exc inc (m + 1) nm sy pm cs pfx
      rw [hls]
      intro h
      exact Except.noConfusion h

theorem seqExcept_ne_valueError (xs : List (Except PyErr (List String)))
    (h : ∀ x ∈ xs, x ≠ Except.error PyErr.valueError) :
    seqExcept xs ≠ Except.error PyErr.valueError := by
  induction xs with
  | nil => intro hc; exact Except.noConfusion hc
  | cons x xs ih =>
    have hx : x ≠ Except.error PyErr.valueError := h x (List.mem_cons_self x xs)
    have hrest : seqExcept xs ≠ Except.error PyErr.valueError :=
      ih (fun y hy => h y (List.mem_cons_of_mem _ hy))
    intro hc
    cases x with
    | error e =>
      simp only [seqExcept, exceptBind_err] at hc
      exact hx (by rw [Except.error.inj hc])
    | ok a =>
      simp only [seqExcept, exceptBind_ok] at hc
      cases hseq : seqExcept xs with
      | error e =>
        rw [hseq, exceptBind_err] at hc
        exact hrest (hseq.trans hc)
      | ok rest =>
        rw [hseq, exceptBind_ok] at hc
        exact Except.noConfusion hc

/-! ### Claim theorem: C9 -/

/-- C9: with an empty resolved roots list (reachable via a config file
whose `roots` entry is an empty list), `main` fails with `ValueError`
when constructing `ThreadPoolExecutor(max_workers=0)` instead of
completing a snapshot with an empty body; with a non-empty roots list
the pool construction never raises (a run can only fail with the
walker's own exception classes). -/
theorem claim_c9 (roots : List String) (fsOf : String → FS)
    (git : Option (String → Bool)) (exc : List (String → Bool)) (inc : List String)
    (depth : Nat) (ts : String) :
    (roots = [] →
      mainWriteModel roots (fun r => scandirPathsM git exc inc depth (fsOf r)) ts
        = Except.error PyErr.valueError)
    ∧ (roots ≠ [] →
      mainWriteModel roots (fun r => scandirPathsM git exc inc depth (fsOf r)) ts
        ≠ Except.error PyErr.valueError) := by
  constructor
  · intro h
    subst h
    rfl
  · intro h
    have hlen : roots.length ≠ 0 := fun hc => h (List.length_eq_zero.mp hc)
    have hpool : threadPoolNew roots.length = Except.ok () := by
      simp [threadPoolNew, hlen]
    have hseq : seqExcept (roots.map (fun r => scandirPathsM git exc inc depth (fsOf r)))
        ≠ Except.error PyErr.valueError := by
      refine seqExcept_ne_valueError _ ?_
      intro x hx
      obtain ⟨r, _, hr⟩ := List.mem_map.mp hx
      rw [← hr]
      exact walkAux_ne_valueError git exc inc (depth + 1) (fsOf r) ""
    intro hc
    simp only [mainWriteModel, hpool, exceptBind_ok] at hc
    cases hs : seqExcept (roots.map (fun r => scandirPathsM git exc inc depth (fsOf r))) with
    | error e =>
      rw [hs, exceptBind_err] at hc
      exact hseq (by rw [hs, Except.error.inj hc])
    | ok results =>
      rw [hs, exceptBind_ok] at hc
      exact Except.noConfusion hc

/-! ### Symbolic links: the walker never recurses through them -/

theorem entryEquiv_name {m : Nat} {a b : FS} (h : entryEquiv (m + 1) a b = true) :
    a.name = b.name := by
  rw [entryEquiv_succ] at h
  cases a with
  | file n1 s1 mt1 =>
    cases b with
    | file n2 s2 mt2 => simp_all [FS.name]
    | dir n2 sy2 p2 c2 => cases sy2 <;> simp_all
    | missing n2 => simp_all
  | dir n1 sy1 p1 c1 =>
    cases b with
    | file n2 s2 mt2 => cases sy1 <;> simp_all
    | dir n2 sy2 p2 c2 => cases sy1 <;> cases sy2 <;> simp_all [FS.name]
    | missing n2 => cases sy1 <;> simp_all
  | missing n1 =>
    cases b with
    | file n2 s2 mt2 => simp_all
    | dir n2 sy2 p2 c2 => cases sy2 <;> simp_all
    | missing n2 => simp_all [FS.name]

theorem insertByName_equiv {k : Nat} {a b : FS} {s t : List FS}
    (hab : entryEquiv (k + 1) a b = true) (hst : listEquiv (k + 1) s t = true) :
    listEquiv (k + 1) (insertByName a s) (insertByName b t) = true := by
  induction s generalizing t with
  | nil =>
    cases t with
    | nil => simp [insertByName, listEquiv, pairAll, hab]
    | cons y ys => simp [listEquiv, pairAll] at hst
  | cons x xs ih =>
    cases t with
    | nil => simp [listEquiv, pairAll] at hst
    | cons y ys =>
      have hxy : entryEquiv (k + 1) x y = true := by
        have h' := hst
        simp only [listEquiv, pairAll, Bool.and_eq_true] at h'
        exact h'.1
      have hxs : listEquiv (k + 1) xs ys = true := by
        have h' := hst
        simp only [listEquiv, pairAll, Bool.and_eq_true] at h'
        exact h'.2
      have hn1 : a.name = b.name := entryEquiv_name hab
      have hn2 : x.name = y.name := entryEquiv_name hxy
      simp only [insertByName]
      rw [← hn1, ← hn2]
      by_cases hc : strLe a.name x.name = true
      · simp only [hc, if_true]
        simp only [listEquiv, pairAll, Bool.and_eq_true]
        exact ⟨hab, hxy, by simpa only [listEquiv] using hxs⟩
      · simp only [hc, if_false]
        simp only [listEquiv, pairAll, Bool.and_eq_true]
        exact ⟨hxy, by simpa only [listEquiv] using ih hxs⟩

theorem sortByName_equiv {k : Nat} : ∀ {as bs : List FS},
    listEquiv (k + 1) as bs = true →
    listEquiv (k + 1) (sortByName as) (sortByName bs) = true := by
  intro as
  induction as with
  | nil =>
    intro bs h
    cases bs with
    | nil => simpa [sortByName] using h
    | cons b bs => simp [listEquiv, pairAll] at h
  | cons a as ih =>
    intro bs h
    cases bs with
    | nil => simp [listEquiv, pairAll] at h
    | cons b bs =>
      have hab : entryEquiv (k + 1) a b = true := by
        have h' := h
        simp only [listEquiv, pairAll, Bool.and_eq_true] at h'
        exact h'.1
      have htl : listEquiv (k + 1) as bs = true := by
        have h' := h
        simp only [listEquiv, pairAll, Bool.and_eq_true] at h'
        exact h'.2
      exact insertByName_equiv hab (ih htl)

theorem walkKids_tail_congr (git : Option (String → Bool)) (exc : List (String → Bool))
    (inc : List String) (recur : FS → String → Except PyErr (List String))
    (c : FS) (as bs : List FS) (pfx : String)
    (ht : walkKids git exc inc recur as pfx = walkKids git exc inc recur bs pfx) :
    walkKids git exc inc recur (c :: as) pfx = walkKids git exc inc recur (c :: bs) pfx := by
  simp only [walkKids]
  rw [ht]

theorem walkKids_head_congr (git : Option (String → Bool)) (exc : List (String → Bool))
    (inc : List String) (recur : FS → String → Except PyErr (List String))
    (c c' : FS) (as bs : List FS) (pfx : String)
    (hn : c.name = c'.name)
    (hd : c.isDirNoFollow = c'.isDirNoFollow)
    (hr : c.isDirNoFollow = true →
      recur c (pfx ++ c.name ++ "/") = recur c' (pfx ++ c.name ++ "/"))
    (ht : walkKids git exc inc recur as pfx = walkKids git exc inc recur bs pfx) :
    walkKids git exc inc recur (c :: as) pfx = walkKids git exc inc recur (c' :: bs) pfx := by
  by_cases h3 : c.isDirNoFollow = true
  · simp only [walkKids]
    rw [← hn, ← hd, ht, ← hr h3]
  · have h3' : c.isDirNoFollow = false := by
      revert h3; cases c.isDirNoFollow <;> simp
    simp only [walkKids]
    rw [← hn, ← hd, ht]
    simp [h3']

theorem walkKids_symequiv (git : Option (String → Bool)) (exc : List (String → Bool))
    (inc : List String) :
    ∀ (m : Nat) (as bs : List FS) (pfx : String),
      listEquiv (m + 1) as bs = true →
      walkKids git exc inc (walkAux git exc inc m) as pfx
        = walkKids git exc inc (walkAux git exc inc m) bs pfx := by
  intro m
  induction m using Nat.strong_induction_on with
  | _ m IH =>
    intro as
    induction as with
    | nil =>
      intro bs pfx h
      cases bs with
      | nil => rfl
      | cons b bs => simp [listEquiv, pairAll] at h
    | cons a as ihas =>
      intro bs pfx h
      cases bs with
      | nil => simp [listEquiv, pairAll] at h
      | cons b bs =>
        have hab : entryEquiv (m + 1) a b = true := by
          have h' := h
          simp only [listEquiv, pairAll, Bool.and_eq_true] at h'
          exact h'.1
        have htl : listEquiv (m + 1) as bs = true := by
          have h' := h
          simp only [listEquiv, pairAll, Bool.and_eq_true] at h'
          exact h'.2
        have htail := ihas bs pfx htl
        rw [entryEquiv_succ] at hab
        cases a with
        | file n1 s1 mt1 =>
          cases b with
          | file n2 s2 mt2 =>
            have h' : (n1 = n2 ∧ s1 = s2) ∧ mt1 = mt2 := by simpa using hab
            obtain ⟨⟨hn, hs⟩, hm⟩ := h'
            subst hn; subst hs; subst hm
            exact walkKids_tail_congr git exc inc _ _ as bs pfx htail
          | dir n2 sy2 p2 c2 => cases sy2 <;> simp at hab
          | missing n2 => simp at hab
        | missing n1 =>
          cases b with
          | file n2 s2 mt2 => simp at hab
          | dir n2 sy2 p2 c2 => cases sy2 <;> simp at hab
          | missing n2 =>
            have hn : n1 = n2 := by simpa using hab
            subst hn
            exact walkKids_tail_congr git exc inc _ _ as bs pfx htail
        | dir n1 sy1 p1 c1 =>
          cases b with
          | file n2 s2 mt2 => cases sy1 <;> simp at hab
          | missing n2 => cases sy1 <;> simp at hab
          | dir n2 sy2 p2 c2 =>
            cases sy1 with
            | true =>
              cases sy2 with
              | false => simp at hab
              | true =>
                have h' : n1 = n2 ∧ p1 = p2 := by simpa using hab
                obtain ⟨hn, hp⟩ := h'
                subst hn; subst hp
                refine walkKids_head_congr git exc inc _ _ _ as bs pfx rfl rfl ?_ htail
                intro hdir
                simp [FS.isDirNoFollow] at hdir
            | false =>
              cases sy2 with
              | true => simp at hab
              | false =>
                have h' : (n1 = n2 ∧ p1 = p2) ∧ pairAll (entryEquiv m) c1 c2 = true := by
                  simpa using hab
                obtain ⟨⟨hn, hp⟩, hkids⟩ := h'
                subst hn; subst hp
                refine walkKids_head_congr git exc inc _ _ _ as bs pfx rfl rfl ?_ htail
                intro _
                cases m with
                | zero => rfl
                | succ j =>
                  rw [walkAux_succ_dir, walkAux_succ_dir]
                  cases p1 with
                  | false => rfl
                  | true =>
                    rw [if_pos rfl, if_pos rfl]
                    exact IH j (Nat.lt_succ_self j) _ _ _
                      (sortByName_equiv (k := j) hkids)

/-! ### Claim theorem: C10 -/

/-- C10: the flat walker never recurses into a directory entry that is
a symbolic link.  First conjunct: the walker's output is unchanged when
the target contents of any symlinked directory, anywhere in the tree,
are replaced (`listEquiv` compares everything except symlink targets).
Second conjunct: a symlinked directory entry is processed by the file
rule — it is yielded exactly when its name is special or its suffix is
in the include set, contributing no descendant paths. -/
theorem claim_c10 (git : Option (String → Bool)) (exc : List (String → Bool))
    (inc : List String) :
    (∀ (depth : Nat) (nm : String) (sy pm : Bool) (c1 c2 : List FS),
      listEquiv (depth + 1) c1 c2 = true →
      scandirPathsM git exc inc depth (.dir nm sy pm c1)
        = scandirPathsM git exc inc depth (.dir nm sy pm c2))
    ∧ (∀ (recur : FS → String → Except PyErr (List String)) (nm : String) (pm : Bool)
        (gs : List FS) (cs : List FS) (pfx : String),
      walkKids git exc inc recur (.dir nm true pm gs :: cs) pfx
        = (walkKids git exc inc recur cs pfx).map (fun rest =>
            if gitM git (pfx ++ nm) then rest
            else if matchExclude (pfx ++ nm) exc then rest
            else if nm ∈ SPECIAL_NAMES ∨ strLower (pySuffix nm) ∈ inc then
              (pfx ++ nm) :: rest
            else rest)) := by
  constructor
  · intro depth nm sy pm c1 c2 hkids
    show walkAux git exc inc (depth + 1) (.dir nm sy pm c1) ""
      = walkAux git exc inc (depth + 1) (.dir nm sy pm c2) ""
    rw [walkAux_succ_dir, walkAux_succ_dir]
    cases pm with
    | false => rfl
    | true =>
      rw [if_pos rfl, if_pos rfl]
      exact walkKids_symequiv git exc inc depth _ _ ""
        (sortByName_equiv (k := depth) hkids)
  · intro recur nm pm gs cs pfx
    by_cases h1 : gitM git (pfx ++ nm) = true
    · cases hk : walkKids git exc inc recur cs pfx <;>
        simp [walkKids, FS.name, FS.isDirNoFollow, h1, hk, Except.map]
    · by_cases h2 : matchExclude (pfx ++ nm) exc = true
      · cases hk : walkKids git exc inc recur cs pfx <;>
          simp [walkKids, FS.name, FS.isDirNoFollow, h1, h2, hk, Except.map]
      · by_cases h5 : nm ∈ SPECIAL_NAMES ∨ strLower (pySuffix nm) ∈ inc
        · cases hk : walkKids git exc inc recur cs pfx <;>
            simp [walkKids, FS.name, FS.isDirNoFollow, h1, h2, h5, hk, Except.map,
              exceptBind_ok, exceptBind_err]
        · cases hk : walkKids git exc inc recur cs pfx <;>
            simp [walkKids, FS.name, FS.isDirNoFollow, h1, h2, h5, hk, Except.map,
              exceptBind_ok, exceptBind_err]

/-- C10 witness: a symlinked directory with a matching file inside is
listed identically to one with empty target contents, and contributes
only itself under the file rule. -/
theorem claim_c10_witness :
    scandirPathsM none [] [".py"] 0
        (.dir "r" false true [.dir "s" true true [.file "x.py" 1 1]])
      = scandirPathsM none [] [".py"] 0 (.dir "r" false true [.dir "s" true true []])
    ∧ walkKids none [] [".py"] (walkAux none [] [".py"] 0)
        [.dir "s" true true [.file "x.py" 1 1]] ""
      = (walkKids none [] [".py"] (walkAux none [] [".py"] 0) [] "").map (fun rest =>
          if gitM none ("" ++ "s") then rest
          else if matchExclude ("" ++ "s") [] then rest
          else if "s" ∈ SPECIAL_NAMES ∨ strLower (pySuffix "s") ∈ [".py"] then
            ("" ++ "s") :: rest
          else rest) :=
  ⟨(claim_c10 none [] [".py"]).1 0 "r" false true
      [.dir "s" true true [.file "x.py" 1 1]] [.dir "s" true true []] (by decide),
   (claim_c10 none [] [".py"]).2 (walkAux none [] [".py"] 0) "s" true
      [.file "x.py" 1 1] [] ""⟩

/-! ### Depth bounds for the walker -/

theorem mem_insertByName {a x : FS} {l : List FS} :
    a ∈ insertByName x l ↔ a = x ∨ a ∈ l := by
  induction l with
  | nil => simp [insertByName]
  | cons y ys ih =>
    simp only [insertByName]
    split
    · simp
    · simp only [List.mem_cons, ih]
      tauto

theorem mem_sortByName {a : FS} {l : List FS} : a ∈ sortByName l ↔ a ∈ l := by
  induction l with
  | nil => simp [sortByName]
  | cons x xs ih =>
    show a ∈ insertByName x (sortByName xs) ↔ _
    rw [mem_insertByName]
    simp [ih]

theorem all_sortByName {p : FS → Bool} {l : List FS} (h : l.all p = true) :
    (sortByName l).all p = true := by
  rw [List.all_eq_true] at h ⊢
  intro x hx
  exact h x (mem_sortByName.mp hx)

theorem sepCount_append (a b : String) : sepCount (a ++ b) = sepCount a + sepCount b := by
  simp [sepCount, String.data_append, List.count_append]

theorem sepCount_slashFree {nm : String} (h : slashFree nm = true) : sepCount nm = 0 := by
  simp only [slashFree, Bool.not_eq_true'] at h
  have h' : '/' ∉ nm.data := by simpa using h
  simp [sepCount, List.count_eq_zero, h']

theorem sepCount_slash : sepCount "/" = 1 := rfl

theorem allNamesP_succ_file (p : String → Bool) (m : Nat) (nm : String) (sz mt : Nat) :
    allNamesP p (m + 1) (.file nm sz mt) = p nm := rfl

theorem allNamesP_succ_missing (p : String → Bool) (m : Nat) (nm : String) :
    allNamesP p (m + 1) (.missing nm) = p nm := rfl

theorem allNamesP_name {p : String → Bool} {n : Nat} {c : FS}
    (h : allNamesP p (n + 1) c = true) : p c.name = true := by
  cases c with
  | file nm sz mt => simpa [allNamesP_succ_file, FS.name] using h
  | missing nm => simpa [allNamesP_succ_missing, FS.name] using h
  | dir nm sy pm cs =>
    rw [allNamesP_succ_dir, Bool.and_eq_true] at h
    simpa [FS.name] using h.1

/-- The output paths of `_walk`'s loop over one directory's children
have at most `sepCount pfx + n` separators when every entry name below
is separator-free. -/
theorem walkKids_sep_bound (git : Option (String → Bool)) (exc : List (String → Bool))
    (inc : List String) :
    ∀ (n : Nat) (cs : List FS) (pfx : String) (ls : List String) (r : String),
      cs.all (allNamesP slashFree (n + 1)) = true →
      walkKids git exc inc (walkAux git exc inc n) cs pfx = .ok ls →
      r ∈ ls → sepCount r ≤ sepCount pfx + n := by
  intro n
  induction n using Nat.strong_induction_on with
  | _ n IH =>
    intro cs
    induction cs with
    | nil =>
      intro pfx ls r hall hok hr
      simp only [walkKids] at hok
      cases hok
      simp at hr
    | cons c cs ih =>
      intro pfx ls r hall hok hr
      rw [List.all_cons, Bool.and_eq_true] at hall
      obtain ⟨hcn, hcs⟩ := hall
      have hname : slashFree c.name = true := allNamesP_name hcn
      have hrel : sepCount (pfx ++ c.name) = sepCount pfx := by
        rw [sepCount_append, sepCount_slashFree hname]
        omega
      by_cases h1 : gitM git (pfx ++ c.name) = true
      · refine ih pfx ls r hcs ?_ hr
        simpa [walkKids, h1] using hok
      by_cases h2 : matchExclude (pfx ++ c.name) exc = true
      · refine ih pfx ls r hcs ?_ hr
        simpa [walkKids, h1, h2] using hok
      by_cases h3 : c.isDirNoFollow = true
      · by_cases h4 : c.name ∈ DEFAULT_EXCLUDE ∧ pfx ++ c.name ≠ ""
        · refine ih pfx ls r hcs ?_ hr
          simpa [walkKids, h1, h2, h3, h4] using hok
        · cases hsub : walkAux git exc inc n c (pfx ++ c.name ++ "/") with
          | error e =>
            rw [walkKids] at hok
            simp [h1, h2, h3, h4, hsub, exceptBind_err] at hok
          | ok sub =>
            cases hrest : walkKids git exc inc (walkAux git exc inc n) cs pfx with
            | error e =>
              rw [walkKids] at hok
              simp [h1, h2, h3, h4, hsub, hrest, exceptBind_ok, exceptBind_err] at hok
            | ok rest =>
              have hls : ls = (pfx ++ c.name) :: (sub ++ rest) := by
                rw [walkKids] at hok
                simp [h1, h2, h3, h4, hsub, hrest, exceptBind_ok] at hok
                exact hok.symm
              subst hls
              rcases List.mem_cons.mp hr with hr1 | hr2
              · subst hr1
                rw [hrel]
                omega
              · rcases List.mem_append.mp hr2 with hs | hs
                · -- r comes from the recursive walk of the dir child
                  cases c with
                  | file nm sz mt => simp [FS.isDirNoFollow] at h3
                  | missing nm => simp [FS.isDirNoFollow] at h3
                  | dir nm sy pm gs =>
                    cases n with
                    | zero =>
                      rw [walkAux_zero] at hsub
                      cases hsub
                      simp at hs
                    | succ j =>
                      rw [walkAux_succ_dir] at hsub
                      cases pm with
                      | false =>
                        simp only [if_neg (by simp : ¬(false = true))] at hsub
                        cases hsub
                        simp at hs
                      | true =>
                        rw [if_pos rfl] at hsub
                        have hgs : gs.all (allNamesP slashFree (j + 1)) = true := by
                          rw [allNamesP_succ_dir, Bool.and_eq_true] at hcn
                          exact hcn.2
                        have hbound := IH j (Nat.lt_succ_self j) (sortByName gs)
                          (pfx ++ (FS.dir nm sy true gs).name ++ "/") sub r
                          (all_sortByName hgs) hsub hs
                        have hsep : sepCount (pfx ++ (FS.dir nm sy true gs).name ++ "/")
                            = sepCount pfx + 1 := by
                          rw [sepCount_append, sepCount_append]
                          have : sepCount (FS.dir nm sy true gs).name = 0 :=
                            sepCount_slashFree hname
                          rw [this, sepCount_slash]
                        omega
                · exact Nat.le_trans (ih pfx rest r hcs hrest hs) (by omega)
      · by_cases h5 : c.name ∈ SPECIAL_NAMES ∨ strLower (pySuffix c.name) ∈ inc
        · cases hrest : walkKids git exc inc (walkAux git exc inc n) cs pfx with
          | error e =>
            rw [walkKids] at hok
            simp [h1, h2, h3, h5, hrest, exceptBind_err] at hok
          | ok rest =>
            have hls : ls = (pfx ++ c.name) :: rest := by
              rw [walkKids] at hok
              simp [h1, h2, h3, h5, hrest, exceptBind_ok] at hok
              exact hok.symm
            subst hls
            rcases List.mem_cons.mp hr with hr1 | hr2
            · subst hr1
              rw [hrel]
              omega
            · exact Nat.le_trans (ih pfx rest r hcs hrest hr2) (by omega)
        · refine ih pfx ls r hcs ?_ hr
          simpa [walkKids, h1, h2, h3, h5] using hok

/-- At the deepest allowed level (`fuel = 0` for the recursive calls),
every yielded path is an immediate child's name appended to the current
prefix. -/
theorem walkKids_zero_shape (git : Option (String → Bool)) (exc : List (String → Bool))
    (inc : List String) :
    ∀ (cs : List FS) (pfx : String) (ls : List String) (r : String),
      walkKids git exc inc (walkAux git exc inc 0) cs pfx = .ok ls →
      r ∈ ls → ∃ c, c ∈ cs ∧ r = pfx ++ c.name := by
  intro cs
  induction cs with
  | nil =>
    intro pfx ls r hok hr
    simp only [walkKids] at hok
    cases hok
    simp at hr
  | cons c cs ih =>
    intro pfx ls r hok hr
    by_cases h1 : gitM git (pfx ++ c.name) = true
    · obtain ⟨c', hc', hr'⟩ := ih pfx ls r (by simpa [walkKids, h1] using hok) hr
      exact ⟨c', List.mem_cons_of_mem _ hc', hr'⟩
    by_cases h2 : matchExclude (pfx ++ c.name) exc = true
    · obtain ⟨c', hc', hr'⟩ := ih pfx ls r (by simpa [walkKids, h1, h2] using hok) hr
      exact ⟨c', List.mem_cons_of_mem _ hc', hr'⟩
    by_cases h3 : c.isDirNoFollow = true
    · by_cases h4 : c.name ∈ DEFAULT_EXCLUDE ∧ pfx ++ c.name ≠ ""
      · obtain ⟨c', hc', hr'⟩ := ih pfx ls r (by simpa [walkKids, h1, h2, h3, h4] using hok) hr
        exact ⟨c', List.mem_cons_of_mem _ hc', hr'⟩
      · cases hrest : walkKids git exc inc (walkAux git exc inc 0) cs pfx with
        | error e =>
          rw [walkKids] at hok
          simp [h1, h2, h3, h4, hrest, walkAux_zero, exceptBind_ok, exceptBind_err] at hok
        | ok rest =>
          have hls : ls = (pfx ++ c.name) :: rest := by
            rw [walkKids] at hok
            simp [h1, h2, h3, h4, hrest, walkAux_zero, exceptBind_ok] at hok
            exact hok.symm
          subst hls
          rcases List.mem_cons.mp hr with hr1 | hr2
          · exact ⟨c, List.mem_cons_self c cs, hr1⟩
          · obtain ⟨c', hc', hr'⟩ := ih pfx rest r hrest hr2
            exact ⟨c', List.mem_cons_of_mem _ hc', hr'⟩
    · by_cases h5 : c.name ∈ SPECIAL_NAMES ∨ strLower (pySuffix c.name) ∈ inc
      · cases hrest : walkKids git exc inc (walkAux git exc inc 0) cs pfx with
        | error e =>
          rw [walkKids] at hok
          simp [h1, h2, h3, h5, hrest, exceptBind_err] at hok
        | ok rest =>
          have hls : ls = (pfx ++ c.name) :: rest := by
            rw [walkKids] at hok
            simp [h1, h2, h3, h5, hrest, exceptBind_ok] at hok
            exact hok.symm
          subst hls
          rcases List.mem_cons.mp hr with hr1 | hr2
          · exact ⟨c, List.mem_cons_self c cs, hr1⟩
          · obtain ⟨c', hc', hr'⟩ := ih pfx rest r hrest hr2
            exact ⟨c', List.mem_cons_of_mem _ hc', hr'⟩
      · obtain ⟨c', hc', hr'⟩ := ih pfx ls r (by simpa [walkKids, h1, h2, h3, h5] using hok) hr
        exact ⟨c', List.mem_cons_of_mem _ hc', hr'⟩

/-! ### Claim theorem: C7 -/

/-- C7: with entry names free of path separators, every path yielded by
`scandir_paths` with `max-depth = d` has at most `d` separators, and
with `max-depth = 0` every yielded path is the name of an immediate
child of the root. -/
theorem claim_c7 (git : Option (String → Bool)) (exc : List (String → Bool))
    (inc : List String) (depth : Nat) (nm : String) (sy pm : Bool) (cs : List FS)
    (ls : List String) (r : String)
    (hnames : allNamesP slashFree (depth + 2) (.dir nm sy pm cs) = true)
    (hok : scandirPathsM git exc inc depth (.dir nm sy pm cs) = .ok ls)
    (hr : r ∈ ls) :
    sepCount r ≤ depth ∧ (depth = 0 → ∃ c, c ∈ cs ∧ r = c.name) := by
  have hok' : walkAux git exc inc (depth + 1) (.dir nm sy pm cs) "" = .ok ls := hok
  rw [walkAux_succ_dir] at hok'
  cases pm with
  | false =>
    rw [if_neg (by simp : ¬(false = true))] at hok'
    cases hok'
    simp at hr
  | true =>
    rw [if_pos rfl] at hok'
    have hall : (sortByName cs).all (allNamesP slashFree (depth + 1)) = true := by
      rw [allNamesP_succ_dir, Bool.and_eq_true] at hnames
      exact all_sortByName hnames.2
    constructor
    · have hb := walkKids_sep_bound git exc inc depth (sortByName cs) "" ls r hall hok' hr
      have h0 : sepCount "" = 0 := rfl
      omega
    · intro hd
      subst hd
      obtain ⟨c, hc, hr'⟩ := walkKids_zero_shape git exc inc (sortByName cs) "" ls r hok' hr
      exact ⟨c, mem_sortByName.mp hc, hr'⟩

/-- C7 witness: at depth 1 the path `sub/b.py` has one separator. -/
theorem claim_c7_witness :
    sepCount "sub/b.py" ≤ 1
    ∧ (1 = 0 → ∃ c, c ∈ [FS.file "a.py" 1 2, FS.dir "sub" false true [FS.file "b.py" 3 4]]
        ∧ "sub/b.py" = c.name) :=
  claim_c7 none [] [".py"] 1 "r" false true
    [FS.file "a.py" 1 2, FS.dir "sub" false true [FS.file "b.py" 3 4]]
    ["a.py", "sub", "sub/b.py"] "sub/b.py" (by decide) rfl (by decide)

/-- C9 witness: zero roots fail, one root succeeds. -/
theorem claim_c9_witness :
    mainWriteModel [] (fun r => scandirPathsM none [] [".py"] 0 (FS.missing r)) "t"
      = Except.error PyErr.valueError
    ∧ mainWriteModel ["r"] (fun r => scandirPathsM none [] [".py"] 0 (FS.missing r)) "t"
      ≠ Except.error PyErr.valueError :=
  ⟨(claim_c9 [] (fun r => FS.missing r) none [] [".py"] 0 "t").1 rfl,
   (claim_c9 ["r"] (fun r => FS.missing r) none [] [".py"] 0 "t").2
     (List.cons_ne_nil "r" [])⟩

/-! ### Ordering: the string order used by `sorted` -/

theorem lexLe_total : ∀ a b : List Char, lexLe a b = true ∨ lexLe b a = true := by
  intro a
  induction a with
  | nil => intro b; left; rfl
  | cons x xs ih =>
    intro b
    cases b with
    | nil => right; rfl
    | cons y ys =>
      by_cases h1 : x.toNat < y.toNat
      · left; simp [lexLe, h1]
      · by_cases h2 : x.toNat = y.toNat
        · rcases ih ys with h3 | h3
          · left; simp [lexLe, h1, h2, h3]
          · right
            have hlt : ¬ y.toNat < x.toNat := by omega
            have heq : y.toNat = x.toNat := by omega
            simp [lexLe, hlt, heq, h3]
        · right
          have h3 : y.toNat < x.toNat := by omega
          simp [lexLe, h3]

theorem lexLe_trans :
    ∀ a b c : List Char, lexLe a b = true → lexLe b c = true → lexLe a c = true := by
  intro a
  induction a with
  | nil => intro b c _ _; rfl
  | cons x xs ih =>
    intro b c h1 h2
    cases b with
    | nil => simp [lexLe] at h1
    | cons y ys =>
      cases c with
      | nil => simp [lexLe] at h2
      | cons z zs =>
        by_cases hxy : x.toNat < y.toNat
        · by_cases hyz : y.toNat < z.toNat
          · have h : x.toNat < z.toNat := Nat.lt_trans hxy hyz
            simp [lexLe, h]
          · by_cases hyz2 : y.toNat = z.toNat
            · have h : x.toNat < z.toNat := by omega
              simp [lexLe, h]
            · simp [lexLe, hyz, hyz2] at h2
        · by_cases hxy2 : x.toNat = y.toNat
          · by_cases hyz : y.toNat < z.toNat
            · have h : x.toNat < z.toNat := by omega
              simp [lexLe, h]
            · by_cases hyz2 : y.toNat = z.toNat
              · have hxz : ¬ x.toNat < z.toNat := by omega
                have hxz2 : x.toNat = z.toNat := by omega
                have h1' : lexLe xs ys = true := by simpa [lexLe, hxy, hxy2] using h1
                have h2' : lexLe ys zs = true := by simpa [lexLe, hyz, hyz2] using h2
                simp [lexLe, hxz, hxz2, ih ys zs h1' h2']
              · simp [lexLe, hyz, hyz2] at h2
          · simp [lexLe, hxy, hxy2] at h1

theorem strLe_total (a b : String) : strLe a b = true ∨ strLe b a = true :=
  lexLe_total a.data b.data

theorem strLe_trans {a b c : String} (h1 : strLe a b = true) (h2 : strLe b c = true) :
    strLe a c = true :=
  lexLe_trans a.data b.data c.data h1 h2

theorem pairwise_insertByName {x : FS} {l : List FS}
    (hl : List.Pairwise (fun a b : FS => strLe a.name b.name = true) l) :
    List.Pairwise (fun a b : FS => strLe a.name b.name = true) (insertByName x l) := by
  induction l with
  | nil => simp [insertByName]
  | cons y ys ih =>
    rw [List.pairwise_cons] at hl
    obtain ⟨hy, hys⟩ := hl
    simp only [insertByName]
    by_cases hc : strLe x.name y.name = true
    · rw [if_pos hc]
      rw [List.pairwise_cons]
      refine ⟨?_, by rw [List.pairwise_cons]; exact ⟨hy, hys⟩⟩
      intro z hz
      rcases List.mem_cons.mp hz with hz1 | hz2
      · rw [hz1]; exact hc
      · exact strLe_trans hc (hy z hz2)
    · rw [if_neg hc]
      rw [List.pairwise_cons]
      constructor
      · intro z hz
        rcases mem_insertByName.mp hz with hz1 | hz2
        · rw [hz1]
          rcases strLe_total x.name y.name with h | h
          · exact absurd h hc
          · exact h
        · exact hy z hz2
      · exact ih hys

theorem sortByName_pairwise (l : List FS) :
    List.Pairwise (fun a b : FS => strLe a.name b.name = true) (sortByName l) := by
  induction l with
  | nil => simp [sortByName]
  | cons x xs ih => exact pairwise_insertByName ih

/-! ### Grouping and depth-first structure of the output -/

/-- The value of an `ok` result (the only case the callers reach). -/
def okD (e : Except PyErr (List String)) : List String :=
  match e with
  | .ok v => v
  | .error _ => []

/-- The contiguous block of output lines one directory entry contributes
to its parent's listing: nothing when filtered, its own relative path
followed by its whole (recursively walked) subtree for a real
directory, and its own path alone for a file-rule match. -/
def childContrib (git : Option (String → Bool)) (exc : List (String → Bool))
    (inc : List String) (recur : FS → String → Except PyErr (List String))
    (pfx : String) (c : FS) : List String :=
  let rel := pfx ++ c.name
  if gitM git rel then []
  else if matchExclude rel exc then []
  else if c.isDirNoFollow then
    if c.name ∈ DEFAULT_EXCLUDE ∧ rel ≠ "" then []
    else rel :: okD (recur c (rel ++ "/"))
  else if c.name ∈ SPECIAL_NAMES ∨ strLower (pySuffix c.name) ∈ inc then [rel]
  else []

theorem walkKids_flatMap (git : Option (String → Bool)) (exc : List (String → Bool))
    (inc : List String) (recur : FS → String → Except PyErr (List String)) :
    ∀ (cs : List FS) (pfx : String) (ls : List String),
      walkKids git exc inc recur cs pfx = .ok ls →
      ls = cs.flatMap (childContrib git exc inc recur pfx) := by
  intro cs
  induction cs with
  | nil =>
    intro pfx ls hok
    simp only [walkKids] at hok
    cases hok
    simp
  | cons c cs ih =>
    intro pfx ls hok
    by_cases h1 : gitM git (pfx ++ c.name) = true
    · rw [List.flatMap_cons]
      rw [ih pfx ls (by simpa [walkKids, h1] using hok)]
      simp [childContrib, h1]
    by_cases h2 : matchExclude (pfx ++ c.name) exc = true
    · rw [List.flatMap_cons]
      rw [ih pfx ls (by simpa [walkKids, h1, h2] using hok)]
      simp [childContrib, h1, h2]
    by_cases h3 : c.isDirNoFollow = true
    · by_cases h4 : c.name ∈ DEFAULT_EXCLUDE ∧ pfx ++ c.name ≠ ""
      · rw [List.flatMap_cons]
        rw [ih pfx ls (by simpa [walkKids, h1, h2, h3, h4] using hok)]
        simp [childContrib, h1, h2, h3, h4]
      · cases hsub : recur c (pfx ++ c.name ++ "/") with
        | error e =>
          rw [walkKids] at hok
          simp [h1, h2, h3, h4, hsub, exceptBind_err] at hok
        | ok sub =>
          cases hrest : walkKids git exc inc recur cs pfx with
          | error e =>
            rw [walkKids] at hok
            simp [h1, h2, h3, h4, hsub, hrest, exceptBind_ok, exceptBind_err] at hok
          | ok rest =>
            have hls : ls = (pfx ++ c.name) :: (sub ++ rest) := by
              rw [walkKids] at hok
              simp [h1, h2, h3, h4, hsub, hrest, exceptBind_ok] at hok
              exact hok.symm
            subst hls
            rw [List.flatMap_cons, ih pfx rest hrest]
            simp [childContrib, h1, h2, h3, h4, hsub, okD]
    · by_cases h5 : c.name ∈ SPECIAL_NAMES ∨ strLower (pySuffix c.name) ∈ inc
      · cases hrest : walkKids git exc inc recur cs pfx with
        | error e =>
          rw [walkKids] at hok
          simp [h1, h2, h3, h5, hrest, exceptBind_err] at hok
        | ok rest =>
          have hls : ls = (pfx ++ c.name) :: rest := by
            rw [walkKids] at hok
            simp [h1, h2, h3, h5, hrest, exceptBind_ok] at hok
            exact hok.symm
          subst hls
          rw [List.flatMap_cons, ih pfx rest hrest]
          simp [childContrib, h1, h2, h3, h5]
      · rw [List.flatMap_cons]
        rw [ih pfx ls (by simpa [walkKids, h1, h2, h3, h5] using hok)]
        simp [childContrib, h1, h2, h3, h5]

theorem seqExcept_ok_map (f : String → Except PyErr (List String)) :
    ∀ (roots : List String) (results : List (List String)),
      seqExcept (roots.map f) = .ok results →
      results = roots.map (fun r => okD (f r)) := by
  intro roots
  induction roots with
  | nil =>
    intro results h
    simp only [List.map_nil, seqExcept] at h
    cases h
    rfl
  | cons r rs ih =>
    intro results h
    simp only [List.map_cons, seqExcept] at h
    cases hf : f r with
    | error e =>
      rw [hf, exceptBind_err] at h
      exact absurd h (by simp)
    | ok v =>
      rw [hf, exceptBind_ok] at h
      cases hs : seqExcept (rs.map f) with
      | error e =>
        rw [hs, exceptBind_err] at h
        exact absurd h (by simp)
      | ok vs =>
        rw [hs, exceptBind_ok] at h
        have hv := Except.ok.inj h
        rw [← hv, ih vs hs]
        simp [okD, hf]

theorem zip_map_rootBlock :
    ∀ (roots : List String) (g : String → List String),
      (roots.zip (roots.map g)).flatMap (fun p => rootBlock p.1 p.2)
        = roots.flatMap (fun r => rootBlock r (g r)) := by
  intro roots g
  induction roots with
  | nil => rfl
  | cons r rs ih => simp [List.zip_cons_cons, List.flatMap_cons, ih]

/-! ### Claim theorem: C8 -/

/-- C8: the snapshot body groups each configured root's entries
contiguously, in configured order, each block a function of that root's
own walk alone (`pool.map` preserves input order, so completion order
is irrelevant); sorted siblings are pairwise nondecreasing in Python's
string order; and a directory listing is the concatenation, over the
name-sorted children, of each child's contiguous depth-first block
(its own path immediately followed by its subtree). -/
theorem claim_c8 :
    (∀ (roots : List String) (f : String → Except PyErr (List String)) (ts : String)
        (lines : List String),
      mainWriteModel roots f ts = .ok lines →
      lines = headerLine ts :: "" :: roots.flatMap (fun r => rootBlock r (okD (f r))))
    ∧ (∀ cs : List FS,
        List.Pairwise (fun a b : FS => strLe a.name b.name = true) (sortByName cs))
    ∧ (∀ (git : Option (String → Bool)) (exc : List (String → Bool)) (inc : List String)
        (recur : FS → String → Except PyErr (List String)) (cs : List FS)
        (pfx : String) (ls : List String),
      walkKids git exc inc recur cs pfx = .ok ls →
      ls = cs.flatMap (childContrib git exc inc recur pfx)) := by
  refine ⟨?_, sortByName_pairwise, fun git exc inc recur cs pfx ls h =>
    walkKids_flatMap git exc inc recur cs pfx ls h⟩
  intro roots f ts lines h
  simp only [mainWriteModel] at h
  cases hp : threadPoolNew roots.length with
  | error e =>
    rw [hp, exceptBind_err] at h
    exact absurd h (by simp)
  | ok u =>
    rw [hp, exceptBind_ok] at h
    cases hs : seqExcept (roots.map f) with
    | error e =>
      rw [hs, exceptBind_err] at h
      exact absurd h (by simp)
    | ok results =>
      rw [hs, exceptBind_ok] at h
      have hv := Except.ok.inj h
      rw [← hv, seqExcept_ok_map f roots results hs, zip_map_rootBlock]

/-- C8 witness: one root, one file; a two-entry sibling sort; a
one-child listing block. -/
theorem claim_c8_witness :
    (["# project-tree snapshot · tZ", "", "## r", "a.py", ""]
      = headerLine "t" :: "" :: (["r"] : List String).flatMap
          (fun r => rootBlock r (okD ((fun _ => (Except.ok ["a.py"] : Except PyErr (List String))) r))))
    ∧ List.Pairwise (fun a b : FS => strLe a.name b.name = true)
        (sortByName [FS.file "b.py" 1 1, FS.file "a.py" 1 1])
    ∧ (["a.py"] = [FS.file "a.py" 1 2].flatMap
        (childContrib none [] [".py"] (walkAux none [] [".py"] 0) "")) :=
  ⟨claim_c8.1 ["r"] (fun _ => Except.ok ["a.py"]) "t"
      ["# project-tree snapshot · tZ", "", "## r", "a.py", ""] rfl,
   claim_c8.2.1 [FS.file "b.py" 1 1, FS.file "a.py" 1 1],
   claim_c8.2.2 none [] [".py"] (walkAux none [] [".py"] 0) [FS.file "a.py" 1 2] "" ["a.py"] rfl⟩

/-! ### Relative-path bookkeeping for the walker/builder equivalence -/

theorem childRel_eq (p nm : String) : relPfx p ++ nm = childRel p nm := by
  by_cases h : p = "."
  · subst h
    rw [relPfx, childRel, if_pos rfl, if_pos rfl]
    rfl
  · rw [relPfx, childRel, if_neg h, if_neg h]

theorem childRel_ne_empty {p nm : String} (h : nm ≠ "") : childRel p nm ≠ "" := by
  rw [childRel]
  by_cases hp : p = "."
  · rw [if_pos hp]; exact h
  · rw [if_neg hp]
    intro hc
    have hd := congrArg String.data hc
    rw [String.data_append, String.data_append] at hd
    simp at hd

theorem childRel_ne_dot {p nm : String} (h : nm ≠ ".") : childRel p nm ≠ "." := by
  rw [childRel]
  by_cases hp : p = "."
  · rw [if_pos hp]; exact h
  · rw [if_neg hp]
    intro hc
    have hd := congrArg String.data hc
    rw [String.data_append, String.data_append] at hd
    have hd' : p.data ++ ('/' :: nm.data) = ['.'] := by simpa using hd
    cases hp2 : p.data with
    | nil => rw [hp2] at hd'; simp at hd'
    | cons c cs => rw [hp2] at hd'; simp at hd'

theorem plainName_spec {nm : String} (h : plainName nm = true) : nm ≠ "" ∧ nm ≠ "." := by
  rw [plainName, Bool.and_eq_true] at h
  exact ⟨by simpa using h.1, by simpa using h.2⟩

theorem okShape_succ_file (m : Nat) (nm : String) (sz mt : Nat) :
    okShape (m + 1) (.file nm sz mt) = true := rfl

theorem okShape_succ_missing (m : Nat) (nm : String) :
    okShape (m + 1) (.missing nm) = false := rfl

theorem buildNodeF_git_none {git : Option (String → Bool)} {exc : List (String → Bool)}
    {inc : List String} {n : Nat} {fs : FS} {rel path : String}
    (h : gitM git rel = true) :
    buildNodeF git exc inc n fs rel path = .ok none := by
  cases n with
  | zero => simp [buildNodeF_zero, buildStep, h]
  | succ m => simp [buildNodeF_succ, buildStep, h]

theorem buildNodeF_exc_none {git : Option (String → Bool)} {exc : List (String → Bool)}
    {inc : List String} {n : Nat} {fs : FS} {rel path : String}
    (hg : ¬ gitM git rel = true) (h : matchExclude rel exc = true) :
    buildNodeF git exc inc n fs rel path = .ok none := by
  cases n with
  | zero => simp [buildNodeF_zero, buildStep, hg, h]
  | succ m => simp [buildNodeF_succ, buildStep, hg, h]

/-- The central refinement lemma: over a well-shaped child list (no
missing entries, no symlinked directories, plain separator-free-enough
names), the flat walker with remaining fuel `n` and the tree builder
with the same fuel produce, for the same children of the directory at
relative path `parentRel`, an output listing and a node list covering
exactly the same set of relative paths. -/
theorem walkBuildKids (git : Option (String → Bool)) (exc : List (String → Bool))
    (inc : List String) :
    ∀ (n : Nat) (cs : List FS) (parentRel parentPath : String),
      cs.all (okShape (n + 1)) = true →
      cs.all (allNamesP plainName (n + 1)) = true →
      ∃ ls ns,
        walkKids git exc inc (walkAux git exc inc n) cs (relPfx parentRel) = .ok ls
        ∧ buildKids (buildNodeF git exc inc n) cs parentRel parentPath = .ok ns
        ∧ ∀ s, s ∈ ls ↔ s ∈ pathsList ns := by
  intro n
  induction n using Nat.strong_induction_on with
  | _ n IH =>
    intro cs
    induction cs with
    | nil =>
      intro parentRel parentPath _ _
      exact ⟨[], [], rfl, rfl, by simp [pathsList]⟩
    | cons c cs ihcs =>
      intro parentRel parentPath hshape hnames
      rw [List.all_cons, Bool.and_eq_true] at hshape hnames
      obtain ⟨hcS, hcsS⟩ := hshape
      obtain ⟨hcN, hcsN⟩ := hnames
      obtain ⟨ls', ns', hw', hb', hiff'⟩ := ihcs parentRel parentPath hcsS hcsN
      have hplain : plainName c.name = true := allNamesP_name hcN
      obtain ⟨hne, hndot⟩ := plainName_spec hplain
      by_cases h1 : gitM git (childRel parentRel c.name) = true
      · refine ⟨ls', ns', ?_, ?_, hiff'⟩
        · simpa [walkKids, childRel_eq, h1] using hw'
        · simpa [buildKids, buildNodeF_git_none h1, exceptBind_ok, exceptBind_pure] using hb'
      by_cases h2 : matchExclude (childRel parentRel c.name) exc = true
      · refine ⟨ls', ns', ?_, ?_, hiff'⟩
        · simpa [walkKids, childRel_eq, h1, h2] using hw'
        · simpa [buildKids, buildNodeF_exc_none h1 h2, exceptBind_ok, exceptBind_pure] using hb'
      cases c with
      | missing nm => rw [okShape_succ_missing] at hcS; exact absurd hcS (by simp)
      | file nm sz mt =>
        simp only [FS.name] at hne hndot h1 h2
        by_cases h5 : nm ∈ SPECIAL_NAMES ∨ strLower (pySuffix nm) ∈ inc
        · refine ⟨childRel parentRel nm :: ls',
            Node.fileN (childRel parentRel nm) sz mt :: ns', ?_, ?_, ?_⟩
          · simp [walkKids, childRel_eq, h1, h2, FS.isDirNoFollow, FS.name, h5, hw',
              exceptBind_ok]
          · have hstep : buildNodeF git exc inc n (.file nm sz mt)
                (childRel parentRel nm) (parentPath ++ "/" ++ nm) =
                .ok (some (.fileN (childRel parentRel nm) sz mt)) := by
              cases n with
              | zero => simp [buildNodeF_zero, buildStep, h1, h2, h5]
              | succ m => simp [buildNodeF_succ, buildStep, h1, h2, h5]
            simp [buildKids, FS.name, hstep, hb', exceptBind_ok]
          · intro s
            simp only [pathsList, List.mem_cons]
            exact or_congr Iff.rfl (hiff' s)
        · refine ⟨ls', ns', ?_, ?_, hiff'⟩
          · simpa [walkKids, childRel_eq, h1, h2, FS.isDirNoFollow, FS.name, h5] using hw'
          · have hstep : buildNodeF git exc inc n (.file nm sz mt)
                (childRel parentRel nm) (parentPath ++ "/" ++ nm) = .ok none := by
              cases n with
              | zero => simp [buildNodeF_zero, buildStep, h1, h2, h5]
              | succ m => simp [buildNodeF_succ, buildStep, h1, h2, h5]
            simpa [buildKids, FS.name, hstep, exceptBind_ok, exceptBind_pure] using hb'
      | dir nm sy pm gs =>
        simp only [FS.name] at hne hndot h1 h2
        have hsy : sy = false := by
          rw [okShape_succ_dir, Bool.and_eq_true] at hcS
          simpa using hcS.1
        subst hsy
        have hrelne : childRel parentRel nm ≠ "" := childRel_ne_empty hne
        have hreldot : childRel parentRel nm ≠ "." := childRel_ne_dot hndot
        by_cases h4 : nm ∈ DEFAULT_EXCLUDE ∧ childRel parentRel nm ≠ ""
        · refine ⟨ls', ns', ?_, ?_, hiff'⟩
          · simpa [walkKids, childRel_eq, h1, h2, FS.isDirNoFollow, FS.name, h4] using hw'
          · have hstep : buildNodeF git exc inc n (.dir nm false pm gs)
                (childRel parentRel nm) (parentPath ++ "/" ++ nm) = .ok none := by
              cases n with
              | zero => simp [buildNodeF_zero, buildStep, h1, h2, h4]
              | succ m => simp [buildNodeF_succ, buildStep, h1, h2, h4]
            simpa [buildKids, FS.name, hstep, exceptBind_ok, exceptBind_pure] using hb'
        · have hde : nm ∉ DEFAULT_EXCLUDE := fun hmem => h4 ⟨hmem, hrelne⟩
          cases n with
          | zero =>
            refine ⟨childRel parentRel nm :: ls',
              Node.dirN (childRel parentRel nm) [] :: ns', ?_, ?_, ?_⟩
            · simp [walkKids, childRel_eq, h1, h2, FS.isDirNoFollow, FS.name, hde,
                walkAux_zero, hw', exceptBind_ok]
            · have hstep : buildNodeF git exc inc 0 (.dir nm false pm gs)
                  (childRel parentRel nm) (parentPath ++ "/" ++ nm) =
                  .ok (some (.dirN (childRel parentRel nm) [])) := by
                simp [buildNodeF_zero, buildStep, h1, h2, hde, dirNodeName, hrelne]
              simp [buildKids, FS.name, hstep, hb', exceptBind_ok]
            · intro s
              simp only [pathsList, List.mem_cons, List.nil_append]
              exact or_congr Iff.rfl (hiff' s)
          | succ m =>
            have hgsS : (sortByName gs).all (okShape (m + 1)) = true := by
              rw [okShape_succ_dir, Bool.and_eq_true] at hcS
              exact all_sortByName hcS.2
            have hgsN : (sortByName gs).all (allNamesP plainName (m + 1)) = true := by
              rw [allNamesP_succ_dir, Bool.and_eq_true] at hcN
              exact all_sortByName hcN.2
            obtain ⟨sub, kids, hwsub, hbkids, hiffsub⟩ :=
              IH m (Nat.lt_succ_self m) (sortByName gs) (childRel parentRel nm)
                (parentPath ++ "/" ++ nm) hgsS hgsN
            have hpfx : relPfx (childRel parentRel nm) = childRel parentRel nm ++ "/" := by
              rw [relPfx, if_neg hreldot]
            rw [hpfx] at hwsub
            cases pm with
            | false =>
              refine ⟨childRel parentRel nm :: ls',
                Node.dirN (childRel parentRel nm) [] :: ns', ?_, ?_, ?_⟩
              · simp [walkKids, childRel_eq, h1, h2, FS.isDirNoFollow, FS.name, hde,
                  walkAux_succ_dir, hw', exceptBind_ok]
              · have hstep : buildNodeF git exc inc (m + 1) (.dir nm false false gs)
                    (childRel parentRel nm) (parentPath ++ "/" ++ nm) =
                    .ok (some (.dirN (childRel parentRel nm) [])) := by
                  simp [buildNodeF_succ, buildStep, h1, h2, hde, dirNodeName, hrelne]
                simp [buildKids, FS.name, hstep, hb', exceptBind_ok]
              · intro s
                simp only [pathsList, List.mem_cons, List.nil_append]
                exact or_congr Iff.rfl (hiff' s)
            | true =>
              refine ⟨childRel parentRel nm :: (sub ++ ls'),
                Node.dirN (childRel parentRel nm) kids :: ns', ?_, ?_, ?_⟩
              · simp [walkKids, childRel_eq, h1, h2, FS.isDirNoFollow, FS.name, hde,
                  walkAux_succ_dir, hwsub, hw', exceptBind_ok]
              · have hstep : buildNodeF git exc inc (m + 1) (.dir nm false true gs)
                    (childRel parentRel nm) (parentPath ++ "/" ++ nm) =
                    .ok (some (.dirN (childRel parentRel nm) kids)) := by
                  simp [buildNodeF_succ, buildStep, h1, h2, hde, dirNodeName, hrelne,
                    hbkids, exceptBind_ok]
                simp [buildKids, FS.name, hstep, hb', exceptBind_ok]
              · intro s
                simp only [pathsList, List.mem_cons, List.mem_append]
                exact or_congr Iff.rfl (or_congr (hiffsub s) (hiff' s))

/-! ### Claim theorems: C5 -/

/-- C5 counterexample: under the *same* arguments (`depth = 0`), the
flat walker lists the immediate child `a.py` while `get_tree_dict`
returns a childless root node — the builder's depth cutoff is one level
shallower than the walker's. -/
theorem claim_c5_counterexample :
    scandirPathsM none [] [".py"] 0 (.dir "r" false true [.file "a.py" 1 2]) = .ok ["a.py"]
    ∧ getTreeDictRoot none [] [".py"] 0 (.dir "r" false true [.file "a.py" 1 2]) "/r"
        = .ok (some (.dirN "." []))
    ∧ "a.py" ∈ ["a.py"]
    ∧ "a.py" ∉ pathsList [Node.dirN "." []] := by
  refine ⟨rfl, rfl, by simp, by simp [pathsList]⟩

/-- With an empty include set the two traversals genuinely diverge:
`scandir_paths` keeps the empty set and lists nothing, while
`get_tree_dict` substitutes `DEFAULT_INCLUDE_SUFFIXES` and keeps
`a.py` — hence the non-empty-include hypothesis of the equivalence. -/
theorem getTreeDictRoot_empty_include_diverges :
    scandirPathsM none [] [] 0 (.dir "r" false true [.file "a.py" 1 2]) = .ok []
    ∧ getTreeDictRoot none [] [] 1 (.dir "r" false true [.file "a.py" 1 2]) "/r"
        = .ok (some (.dirN "." [.fileN "a.py" 1 2])) :=
  ⟨rfl, rfl⟩

/-- C5 (amended): the tree builder applies the same per-entry filtering
rules as the flat walker, but its depth cutoff is one level shallower
(and it additionally filters the root itself, follows symlinked
directories, and substitutes the default suffixes for an empty include
set where the walker keeps the empty set).  Precisely: for a
symlink-free, fully existing root directory whose own name and path are
not filtered, with a non-empty lower-cased include set, the non-root
nodes of `get_tree_dict` at depth `d + 1` carry exactly the set of
relative paths `scandir_paths` yields at depth `d`. -/
theorem claim_c5 (git : Option (String → Bool)) (exc : List (String → Bool))
    (inc : List String) (depth : Nat) (nm rootPath : String) (sy pm : Bool) (cs : List FS)
    (hshape : okShape (depth + 2) (.dir nm sy pm cs) = true)
    (hnames : allNamesP plainName (depth + 2) (.dir nm sy pm cs) = true)
    (hgit : gitM git "." = false)
    (hexc : matchExclude "." exc = false)
    (hde : nm ∉ DEFAULT_EXCLUDE)
    (hinc0 : inc ≠ [])
    (hinc : inc.map strLower = inc) :
    ∃ ls kids,
      scandirPathsM git exc inc depth (.dir nm sy pm cs) = .ok ls
      ∧ getTreeDictRoot git exc inc (depth + 1) (.dir nm sy pm cs) rootPath
          = .ok (some (.dirN "." kids))
      ∧ ∀ s, s ∈ ls ↔ s ∈ pathsList kids := by
  have hcsS : cs.all (okShape (depth + 1)) = true := by
    rw [okShape_succ_dir, Bool.and_eq_true] at hshape
    exact hshape.2
  have hcsN : cs.all (allNamesP plainName (depth + 1)) = true := by
    rw [allNamesP_succ_dir, Bool.and_eq_true] at hnames
    exact hnames.2
  unfold getTreeDictRoot
  rw [if_neg hinc0, hinc]
  cases pm with
  | false =>
    refine ⟨[], [], ?_, ?_, by simp [pathsList]⟩
    · show walkAux git exc inc (depth + 1) (.dir nm sy false cs) "" = .ok []
      rw [walkAux_succ_dir, if_neg (by simp : ¬(false = true))]
    · simp [buildNodeF_succ, buildStep, hgit, hexc, hde, dirNodeName]
  | true =>
    obtain ⟨ls, kids, hw, hb, hiff⟩ :=
      walkBuildKids git exc inc depth (sortByName cs) "." rootPath
        (all_sortByName hcsS) (all_sortByName hcsN)
    refine ⟨ls, kids, ?_, ?_, hiff⟩
    · show walkAux git exc inc (depth + 1) (.dir nm sy true cs) "" = .ok ls
      rw [walkAux_succ_dir, if_pos rfl]
      exact hw
    · simp [buildNodeF_succ, buildStep, hgit, hexc, hde, dirNodeName, hb, exceptBind_ok]

/-- C5 witness: a concrete root with a file and a subdirectory, walker
depth 1 against builder depth 2. -/
theorem claim_c5_witness :
    ∃ ls kids,
      scandirPathsM none [] [".py"] 1
          (.dir "r" false true [.file "a.py" 1 2, .dir "sub" false true [.file "b.py" 3 4]])
        = .ok ls
      ∧ getTreeDictRoot none [] [".py"] 2
          (.dir "r" false true [.file "a.py" 1 2, .dir "sub" false true [.file "b.py" 3 4]])
          "/r"
        = .ok (some (.dirN "." kids))
      ∧ ∀ s, s ∈ ls ↔ s ∈ pathsList kids :=
  claim_c5 none [] [".py"] 1 "r" "/r" false true
    [.file "a.py" 1 2, .dir "sub" false true [.file "b.py" 3 4]]
    (by decide) (by decide) rfl rfl (by decide) (List.cons_ne_nil ".py" []) rfl

end TreeUpdater
